import Mathlib

/-!
Verification of the ratio-finder approximation core.

The program approximates a ratio `a / b` of two positive integers by a reduced
fraction `num / den` with a bounded denominator.  The Python source computes
with double-precision floats; this development models those real-number
computations with exact rational arithmetic (`ℚ`), and models Python's
`round` (round-half-to-even on the value) by `pyRound` on `ℚ`.
-/

namespace RatioFinder

/-- Configuration constant `MAX_DENOMINATOR` from the source (default 64). -/
def MAX_DENOMINATOR : ℕ := 64

/-- Configuration constant `SINGLE_DIGIT_THRESHOLD` from the source
(the float `0.01`, modelled as the rational `1/100`). -/
def SINGLE_DIGIT_THRESHOLD : ℚ := 1 / 100

/-- Python's `round`: round to the nearest integer, ties to even. -/
def pyRound (x : ℚ) : ℤ :=
  if x - ⌊x⌋ < 1 / 2 then ⌊x⌋
  else if 1 / 2 < x - ⌊x⌋ then ⌊x⌋ + 1
  else if ⌊x⌋ % 2 = 0 then ⌊x⌋ else ⌊x⌋ + 1

/-- A candidate tuple `(num, den, err)` as built by `approximate_top5`. -/
structure Candidate where
  num : ℤ
  den : ℤ
  err : ℚ
deriving DecidableEq, Repr

/-- The mode tag of a result: Python returns `None` (normal), a candidate
tuple (single-digit preferred), or the strings `"limit_small"` /
`"limit_large"`. -/
inductive RMode where
  | normal
  | single_digit_preferred (c : Candidate)
  | limit_small
  | limit_large
deriving DecidableEq, Repr

/-- The single-digit test `1 <= num <= 9 and 1 <= den <= 9` from the source. -/
def isSingleDigit (c : Candidate) : Bool :=
  decide (1 ≤ c.num ∧ c.num ≤ 9 ∧ 1 ≤ c.den ∧ c.den ≤ 9)

/-- The candidate-collection loop of `approximate_top5`:
for `den` in `1..maxDen`, let `num = round(target * den)`; skip `num == 0`
and unreduced fractions; record `(num, den, |num/den - target|)`. -/
def genCandidates (maxDen : ℕ) (target : ℚ) : List Candidate :=
  (List.range' 1 maxDen).filterMap fun (d : ℕ) =>
    if pyRound (target * (d : ℚ)) = 0 then none
    else if Int.gcd (pyRound (target * (d : ℚ))) (d : ℤ) ≠ 1 then none
    else some ⟨pyRound (target * (d : ℚ)), (d : ℤ),
               |((pyRound (target * (d : ℚ)) : ℤ) : ℚ) / (d : ℚ) - target|⟩

/-- Insert a candidate in front of the first element whose error is not
strictly smaller.  Used to model Python's stable `list.sort(key=err)`. -/
def insertC (c : Candidate) : List Candidate → List Candidate
  | [] => [c]
  | x :: xs => if x.err < c.err then x :: insertC c xs else c :: x :: xs

/-- Stable sort by the `err` component, modelling
`candidates.sort(key=lambda x: x[2])` (Python's sort is stable: elements
with equal keys keep their original relative order, which `insertC` preserves
because each element is inserted before later elements with an equal key). -/
def sortByErr : List Candidate → List Candidate
  | [] => []
  | c :: cs => insertC c (sortByErr cs)

/-- The ordering a stable sort by error realises on a list generated in
order of ascending denominator: strictly smaller error, or equal error and
strictly smaller denominator (the generation order). -/
def errDenLT (x y : Candidate) : Prop :=
  x.err < y.err ∨ (x.err = y.err ∧ x.den < y.den)

/-- The core `approximate_top5`, with the two configuration globals as
explicit parameters.  Mirrors the source line by line: collect candidates,
fall back to a limit mode when there are none, otherwise sort by error and
apply the single-digit preference policy. -/
def approximate_top5_cfg (maxDen : ℕ) (thr : ℚ) (a b : ℕ) :
    RMode × List Candidate :=
  let target : ℚ := (a : ℚ) / (b : ℚ)
  let candidates := genCandidates maxDen target
  let single_digit_candidates := candidates.filter isSingleDigit
  if candidates.isEmpty then
    if a < b then
      let extreme_den : ℤ := max 1 (pyRound ((b : ℚ) / (a : ℚ)))
      (.limit_small, [⟨1, extreme_den, |1 / (extreme_den : ℚ) - target|⟩])
    else
      let extreme_num : ℤ := max 1 (pyRound ((a : ℚ) / (b : ℚ)))
      (.limit_large, [⟨extreme_num, 1, |(extreme_num : ℚ) / 1 - target|⟩])
  else
    -- Every non-limit return of the source is `(mode, candidates[:5])` for the
    -- sorted candidate list, so the mode computation is factored out here.
    let sorted := sortByErr candidates
    let mode : RMode :=
      if single_digit_candidates.isEmpty then .normal
      else
        match sortByErr single_digit_candidates with
        | [] => .normal
        | best_single_digit :: _ =>
          if best_single_digit.err < thr then
            match sorted with
            | g :: _ =>
              if best_single_digit.num = g.num ∧ best_single_digit.den = g.den
              then .normal
              else .single_digit_preferred best_single_digit
            | [] => .single_digit_preferred best_single_digit
          else .normal
    (mode, sorted.take 5)

/-- `approximate_top5` at the source's configuration values. -/
def approximate_top5 (a b : ℕ) : RMode × List Candidate :=
  approximate_top5_cfg MAX_DENOMINATOR SINGLE_DIGIT_THRESHOLD a b

/-- What the shells display for one query.  `shortCircuit n d e` is the fixed
"exact" display of the caller-side special case; `result` renders the core's
output. -/
inductive Display where
  | shortCircuit (num den : ℕ) (err : ℚ)
  | result (mode : RMode) (cands : List Candidate)
deriving DecidableEq, Repr

/-- The call-site logic shared by `run_cli_mode` and `App.calc`,
parameterised by the core function it calls: the core is invoked first, and
its output is discarded when the special case
`(a == 1 and b > MAX_DENOMINATOR) or (b == 1 and a > MAX_DENOMINATOR)`
triggers. -/
def calcDisplayWith (core : ℕ → ℕ → RMode × List Candidate) (a b : ℕ) :
    Display :=
  let r := core a b
  if (a = 1 ∧ MAX_DENOMINATOR < b) ∨ (b = 1 ∧ MAX_DENOMINATOR < a) then
    if a = 1 then .shortCircuit 1 b 0 else .shortCircuit a 1 0
  else .result r.1 r.2

/-- The call-site logic applied to the real core. -/
def calcDisplay (a b : ℕ) : Display :=
  calcDisplayWith approximate_top5 a b

/-! ### Lemmas about `pyRound` -/

theorem floor_le_pyRound (x : ℚ) : ⌊x⌋ ≤ pyRound x := by
  unfold pyRound
  split_ifs <;> omega

theorem pyRound_le_floor_add_one (x : ℚ) : pyRound x ≤ ⌊x⌋ + 1 := by
  unfold pyRound
  split_ifs <;> omega

theorem pyRound_nonneg {x : ℚ} (hx : 0 ≤ x) : 0 ≤ pyRound x :=
  le_trans (Int.le_floor.mpr (by exact_mod_cast hx)) (floor_le_pyRound x)

theorem one_le_pyRound {x : ℚ} (hx : 1 ≤ x) : 1 ≤ pyRound x :=
  le_trans (Int.le_floor.mpr (by exact_mod_cast hx)) (floor_le_pyRound x)

/-! ### Lemmas about `genCandidates` -/

theorem genCandidates_emit {target : ℚ} {d : ℕ} {c : Candidate}
    (h : (if pyRound (target * (d : ℚ)) = 0 then none
          else if Int.gcd (pyRound (target * (d : ℚ))) (d : ℤ) ≠ 1 then none
          else some ⟨pyRound (target * (d : ℚ)), (d : ℤ),
                     |((pyRound (target * (d : ℚ)) : ℤ) : ℚ) / (d : ℚ) - target|⟩)
         = some c) :
    c.num = pyRound (target * (d : ℚ)) ∧ c.num ≠ 0 ∧ c.den = (d : ℤ) ∧
    Int.gcd c.num c.den = 1 ∧ c.err = |(c.num : ℚ) / (c.den : ℚ) - target| := by
  split_ifs at h with h0 hg
  push_neg at hg
  cases h
  refine ⟨rfl, h0, rfl, hg, ?_⟩
  push_cast
  rfl

theorem mem_genCandidates {maxDen : ℕ} {target : ℚ} {c : Candidate}
    (h : c ∈ genCandidates maxDen target) :
    (1 ≤ c.den ∧ c.den ≤ (maxDen : ℤ)) ∧
    c.num = pyRound (target * (c.den : ℚ)) ∧ c.num ≠ 0 ∧
    Int.gcd c.num c.den = 1 ∧
    c.err = |(c.num : ℚ) / (c.den : ℚ) - target| := by
  unfold genCandidates at h
  rw [List.mem_filterMap] at h
  obtain ⟨d, hd, hc⟩ := h
  rw [List.mem_range'_1] at hd
  obtain ⟨hnum, h0, hden, hg, herr⟩ := genCandidates_emit hc
  refine ⟨⟨by omega, by omega⟩, ?_, h0, hg, herr⟩
  rw [hnum, hden]
  norm_num

theorem genCandidates_pairwise_den (maxDen : ℕ) (target : ℚ) :
    (genCandidates maxDen target).Pairwise fun x y => x.den < y.den := by
  unfold genCandidates
  rw [List.pairwise_filterMap]
  have h := List.pairwise_lt_range' 1 maxDen
  refine h.imp ?_
  intro a b hab x hx y hy
  have hxa := (genCandidates_emit hx).2.2.1
  have hyb := (genCandidates_emit hy).2.2.1
  rw [hxa, hyb]
  exact_mod_cast hab

/-! ### Lemmas about the stable sort -/

theorem insertC_perm (c : Candidate) (l : List Candidate) :
    List.Perm (insertC c l) (c :: l) := by
  induction l with
  | nil => exact List.Perm.refl _
  | cons x xs ih =>
    unfold insertC
    split_ifs
    · exact (ih.cons x).trans (List.Perm.swap c x xs)
    · exact List.Perm.refl _

theorem sortByErr_perm (l : List Candidate) : List.Perm (sortByErr l) l := by
  induction l with
  | nil => exact List.Perm.refl _
  | cons c cs ih => exact (insertC_perm c (sortByErr cs)).trans (ih.cons c)

theorem mem_insertC {z c : Candidate} {l : List Candidate}
    (h : z ∈ insertC c l) : z = c ∨ z ∈ l := by
  have := (insertC_perm c l).mem_iff.mp h
  simpa using this

theorem mem_sortByErr {z : Candidate} {l : List Candidate}
    (h : z ∈ sortByErr l) : z ∈ l :=
  (sortByErr_perm l).mem_iff.mp h

theorem errDenLT_le {x y : Candidate} (h : errDenLT x y) : x.err ≤ y.err := by
  rcases h with h | ⟨h, _⟩
  · exact le_of_lt h
  · exact le_of_eq h

theorem insertC_pairwise {c : Candidate} {l : List Candidate}
    (hl : l.Pairwise errDenLT)
    (hc : ∀ x ∈ l, c.err = x.err → c.den < x.den) :
    (insertC c l).Pairwise errDenLT := by
  induction l with
  | nil => exact List.pairwise_singleton _ _
  | cons x xs ih =>
    rw [List.pairwise_cons] at hl
    unfold insertC
    split_ifs with hx
    · rw [List.pairwise_cons]
      constructor
      · intro z hz
        rcases mem_insertC hz with rfl | hz
        · exact Or.inl hx
        · exact hl.1 z hz
      · exact ih hl.2 fun z hz he => hc z (List.mem_cons_of_mem x hz) he
    · rw [List.pairwise_cons]
      constructor
      · intro z hz
        rcases List.mem_cons.mp hz with rfl | hz
        · rcases lt_or_eq_of_le (not_lt.mp hx) with h | h
          · exact Or.inl h
          · exact Or.inr ⟨h, hc z (List.mem_cons_self z xs) h⟩
        · have hxz : x.err ≤ z.err := errDenLT_le (hl.1 z hz)
          rcases lt_or_eq_of_le (le_trans (not_lt.mp hx) hxz) with h | h
          · exact Or.inl h
          · exact Or.inr ⟨h, hc z (List.mem_cons_of_mem x hz) h⟩
      · exact List.pairwise_cons.mpr hl

theorem sortByErr_pairwise {l : List Candidate}
    (hl : l.Pairwise fun x y => x.den < y.den) :
    (sortByErr l).Pairwise errDenLT := by
  induction l with
  | nil => exact List.Pairwise.nil
  | cons c cs ih =>
    rw [List.pairwise_cons] at hl
    refine insertC_pairwise (ih hl.2) fun x hx _ => ?_
    exact hl.1 x (mem_sortByErr hx)

theorem sortByErr_length (l : List Candidate) :
    (sortByErr l).length = l.length :=
  (sortByErr_perm l).length_eq

theorem sortByErr_eq_nil {l : List Candidate} (h : sortByErr l = []) :
    l = [] :=
  List.eq_nil_of_length_eq_zero (by rw [← sortByErr_length l, h]; rfl)

/-! ### Branch analysis of `approximate_top5_cfg` -/

theorem approx_empty_cases (thr : ℚ) {maxDen : ℕ} {a b : ℕ}
    (hgen : genCandidates maxDen ((a : ℚ) / (b : ℚ)) = []) :
    approximate_top5_cfg maxDen thr a b =
      if a < b then
        (.limit_small, [⟨1, max 1 (pyRound ((b : ℚ) / (a : ℚ))),
          |1 / ((max 1 (pyRound ((b : ℚ) / (a : ℚ))) : ℤ) : ℚ) - (a : ℚ) / (b : ℚ)|⟩])
      else
        (.limit_large, [⟨max 1 (pyRound ((a : ℚ) / (b : ℚ))), 1,
          |((max 1 (pyRound ((a : ℚ) / (b : ℚ))) : ℤ) : ℚ) / 1 - (a : ℚ) / (b : ℚ)|⟩]) := by
  simp only [approximate_top5_cfg, hgen, List.isEmpty_nil, if_true]

theorem approx_snd_of_ne_nil (thr : ℚ) {maxDen : ℕ} {a b : ℕ}
    (hgen : genCandidates maxDen ((a : ℚ) / (b : ℚ)) ≠ []) :
    (approximate_top5_cfg maxDen thr a b).2 =
      (sortByErr (genCandidates maxDen ((a : ℚ) / (b : ℚ)))).take 5 := by
  simp only [approximate_top5_cfg]
  rw [if_neg (by simp [hgen])]

theorem approx_fst_spec (thr : ℚ) {maxDen : ℕ} {a b : ℕ}
    (hgen : genCandidates maxDen ((a : ℚ) / (b : ℚ)) ≠ []) :
    (approximate_top5_cfg maxDen thr a b).1 = .normal ∨
    ∃ best bs,
      sortByErr ((genCandidates maxDen ((a : ℚ) / (b : ℚ))).filter isSingleDigit)
        = best :: bs ∧
      best.err < thr ∧
      (approximate_top5_cfg maxDen thr a b).1 = .single_digit_preferred best := by
  simp only [approximate_top5_cfg]
  rw [if_neg (by simp [hgen])]
  by_cases hs :
      ((genCandidates maxDen ((a : ℚ) / (b : ℚ))).filter isSingleDigit).isEmpty
  · rw [if_pos hs]
    exact Or.inl rfl
  · rw [if_neg hs]
    rcases hsort : sortByErr
        ((genCandidates maxDen ((a : ℚ) / (b : ℚ))).filter isSingleDigit)
      with _ | ⟨best, bs⟩
    · exact Or.inl rfl
    · dsimp only
      by_cases hthr : best.err < thr
      · rw [if_pos hthr]
        rcases hg : sortByErr (genCandidates maxDen ((a : ℚ) / (b : ℚ)))
          with _ | ⟨g, gs⟩
        · exact Or.inr ⟨best, bs, rfl, hthr, rfl⟩
        · dsimp only
          by_cases heq : best.num = g.num ∧ best.den = g.den
          · rw [if_pos heq]
            exact Or.inl rfl
          · rw [if_neg heq]
            exact Or.inr ⟨best, bs, rfl, hthr, rfl⟩
      · rw [if_neg hthr]
        exact Or.inl rfl

theorem approx_mode_of_heads (thr : ℚ) {maxDen : ℕ} {a b : ℕ}
    {best g : Candidate} {bs gs : List Candidate}
    (hbest : sortByErr
        ((genCandidates maxDen ((a : ℚ) / (b : ℚ))).filter isSingleDigit)
      = best :: bs)
    (hg : sortByErr (genCandidates maxDen ((a : ℚ) / (b : ℚ))) = g :: gs) :
    approximate_top5_cfg maxDen thr a b =
      ((if best.err < thr then
          (if best.num = g.num ∧ best.den = g.den then .normal
           else .single_digit_preferred best)
        else .normal), (g :: gs).take 5) := by
  have hgen : genCandidates maxDen ((a : ℚ) / (b : ℚ)) ≠ [] := by
    intro h
    rw [h] at hg
    exact List.noConfusion hg
  have hsing :
      ¬ ((genCandidates maxDen ((a : ℚ) / (b : ℚ))).filter isSingleDigit).isEmpty := by
    intro h
    rw [List.isEmpty_iff] at h
    rw [h] at hbest
    exact List.noConfusion hbest
  simp only [approximate_top5_cfg]
  rw [if_neg (by simp [hgen]), if_neg hsing, hbest, hg]

theorem genCandidates_ne_nil {maxDen : ℕ} (hmd : 1 ≤ maxDen) {target : ℚ}
    (ht : 1 ≤ target) : genCandidates maxDen target ≠ [] := by
  obtain ⟨n, rfl⟩ : ∃ n, maxDen = n + 1 := ⟨maxDen - 1, by omega⟩
  unfold genCandidates
  rw [show List.range' 1 (n + 1) = 1 :: List.range' 2 n from rfl,
    List.filterMap_cons]
  have hnum : 1 ≤ pyRound (target * ((1 : ℕ) : ℚ)) := by
    rw [Nat.cast_one, mul_one]
    exact one_le_pyRound ht
  rw [if_neg (by omega), if_neg (by simp [Int.gcd])]
  exact List.cons_ne_nil _ _

/-! ### Claim theorems -/

/-- C2: for every pair of inputs, the mode returned by `approximate_top5` is
one of the four tags: normal, single-digit-preferred (carrying a candidate),
limit-small, or limit-large. -/
theorem claim_C2_mode_enum (a b : ℕ) :
    (approximate_top5 a b).1 = .normal ∨
    (∃ c, (approximate_top5 a b).1 = .single_digit_preferred c) ∨
    (approximate_top5 a b).1 = .limit_small ∨
    (approximate_top5 a b).1 = .limit_large := by
  cases h : (approximate_top5 a b).1 with
  | normal => exact Or.inl rfl
  | single_digit_preferred c => exact Or.inr (Or.inl ⟨c, rfl⟩)
  | limit_small => exact Or.inr (Or.inr (Or.inl rfl))
  | limit_large => exact Or.inr (Or.inr (Or.inr rfl))

set_option maxRecDepth 400000 in
/-- C3: when the candidate loop produces nothing, `approximate_top5` returns
`limit_small` with the single candidate `(1, max 1 (round (b/a)))` if
`a < b`, and `limit_large` with `(max 1 (round (a/b)), 1)` otherwise; in
particular `approximate_top5 1 1000` yields `limit_small` with the single
candidate of denominator `round 1000 = 1000` and recomputed error `0`. -/
theorem claim_C3_limit_modes :
    (∀ a b : ℕ, 1 ≤ a → 1 ≤ b →
      genCandidates MAX_DENOMINATOR ((a : ℚ) / (b : ℚ)) = [] →
      (a < b → approximate_top5 a b =
        (.limit_small, [⟨1, max 1 (pyRound ((b : ℚ) / (a : ℚ))),
          |1 / ((max 1 (pyRound ((b : ℚ) / (a : ℚ))) : ℤ) : ℚ) -
            (a : ℚ) / (b : ℚ)|⟩])) ∧
      (¬ a < b → approximate_top5 a b =
        (.limit_large, [⟨max 1 (pyRound ((a : ℚ) / (b : ℚ))), 1,
          |((max 1 (pyRound ((a : ℚ) / (b : ℚ))) : ℤ) : ℚ) / 1 -
            (a : ℚ) / (b : ℚ)|⟩]))) ∧
    approximate_top5 1 1000 = (.limit_small, [⟨1, 1000, 0⟩]) ∧
    pyRound (((1000 : ℕ) : ℚ) / ((1 : ℕ) : ℚ)) = 1000 := by
  refine ⟨fun a b ha hb hgen => ⟨fun hab => ?_, fun hab => ?_⟩, ?_, ?_⟩
  · unfold approximate_top5
    rw [approx_empty_cases SINGLE_DIGIT_THRESHOLD hgen, if_pos hab]
  · unfold approximate_top5
    rw [approx_empty_cases SINGLE_DIGIT_THRESHOLD hgen, if_neg hab]
  · with_unfolding_all decide
  · with_unfolding_all decide

set_option maxRecDepth 400000 in
/-- C3 witness: the general limit-mode statement applied at the concrete
input `(1, 1000)`. -/
theorem claim_C3_witness :
    approximate_top5 1 1000 =
      (.limit_small, [⟨1, max 1 (pyRound (((1000 : ℕ) : ℚ) / ((1 : ℕ) : ℚ))),
        |1 / ((max 1 (pyRound (((1000 : ℕ) : ℚ) / ((1 : ℕ) : ℚ))) : ℤ) : ℚ) -
          ((1 : ℕ) : ℚ) / ((1000 : ℕ) : ℚ)|⟩]) :=
  (claim_C3_limit_modes.1 1 1000 (by norm_num) (by norm_num)
    (by with_unfolding_all decide)).1 (by norm_num)

/-- C8: the inputs `(2, 4)` and `(1, 2)` produce the same target ratio, so
`approximate_top5` returns identical results for them. -/
theorem claim_C8_same_target_same_result :
    approximate_top5 2 4 = approximate_top5 1 2 := by
  with_unfolding_all decide

/-- C7: the caller-side short-circuit triggers exactly when one input is `1`
and the other strictly exceeds `MAX_DENOMINATOR`; in that case the display
is the fixed ratio `(1 : other)` or `(other : 1)` with error exactly `0`,
independent of the core's output (which is computed and discarded). -/
theorem claim_C7_short_circuit (a b : ℕ) :
    ((∃ n d e, calcDisplay a b = .shortCircuit n d e) ↔
      ((a = 1 ∧ MAX_DENOMINATOR < b) ∨ (b = 1 ∧ MAX_DENOMINATOR < a))) ∧
    (a = 1 ∧ MAX_DENOMINATOR < b →
      ∀ core, calcDisplayWith core a b = .shortCircuit 1 b 0) ∧
    (b = 1 ∧ MAX_DENOMINATOR < a →
      ∀ core, calcDisplayWith core a b = .shortCircuit a 1 0) := by
  refine ⟨⟨?_, ?_⟩, ?_, ?_⟩
  · rintro ⟨n, d, e, hc⟩
    by_cases hcond :
        (a = 1 ∧ MAX_DENOMINATOR < b) ∨ (b = 1 ∧ MAX_DENOMINATOR < a)
    · exact hcond
    · rw [calcDisplay, calcDisplayWith] at hc
      rw [if_neg hcond] at hc
      exact Display.noConfusion hc
  · intro hcond
    rw [calcDisplay, calcDisplayWith, if_pos hcond]
    by_cases ha1 : a = 1
    · rw [if_pos ha1]
      exact ⟨1, b, 0, rfl⟩
    · rw [if_neg ha1]
      exact ⟨a, 1, 0, rfl⟩
  · rintro ⟨ha1, hbig⟩ core
    rw [calcDisplayWith, if_pos (Or.inl ⟨ha1, hbig⟩), if_pos ha1]
  · rintro ⟨hb1, hbig⟩ core
    have ha1 : a ≠ 1 := by
      intro h
      rw [h] at hbig
      exact absurd hbig (by norm_num [MAX_DENOMINATOR])
    rw [calcDisplayWith, if_pos (Or.inr ⟨hb1, hbig⟩), if_neg ha1]

/-- C7 witness: the short-circuit at the concrete input `(1, 65)`. -/
theorem claim_C7_witness :
    calcDisplayWith approximate_top5 1 65 = .shortCircuit 1 65 0 :=
  (claim_C7_short_circuit 1 65).2.1 ⟨rfl, by norm_num [MAX_DENOMINATOR]⟩
    approximate_top5

/-- C10: with the single-digit threshold set to `0`, the single-digit
preference never triggers (errors are non-negative, and the trigger needs
an error strictly below the threshold). -/
theorem claim_C10_zero_threshold (a b : ℕ) (ha : 1 ≤ a) (hb : 1 ≤ b)
    (c : Candidate) :
    (approximate_top5_cfg MAX_DENOMINATOR 0 a b).1 ≠
      .single_digit_preferred c := by
  intro hmode
  by_cases hgen : genCandidates MAX_DENOMINATOR ((a : ℚ) / (b : ℚ)) = []
  · rw [approx_empty_cases 0 hgen] at hmode
    by_cases hab : a < b
    · rw [if_pos hab] at hmode
      exact RMode.noConfusion hmode
    · rw [if_neg hab] at hmode
      exact RMode.noConfusion hmode
  · rcases approx_fst_spec 0 hgen with hn | ⟨best, bs, hsort, hthr, hsdp⟩
    · exact RMode.noConfusion (hn.symm.trans hmode)
    · have hmem : best ∈ genCandidates MAX_DENOMINATOR ((a : ℚ) / (b : ℚ)) := by
        have h1 : best ∈ sortByErr
            ((genCandidates MAX_DENOMINATOR ((a : ℚ) / (b : ℚ))).filter
              isSingleDigit) := by
          rw [hsort]
          exact List.mem_cons_self best bs
        exact List.mem_of_mem_filter (mem_sortByErr h1)
      have herr := (mem_genCandidates hmem).2.2.2.2
      rw [herr] at hthr
      exact absurd hthr (not_lt.mpr (abs_nonneg _))

/-- C10 witness: the zero-threshold statement applied at `(1, 1)`. -/
theorem claim_C10_witness :
    (approximate_top5_cfg MAX_DENOMINATOR 0 1 1).1 ≠
      .single_digit_preferred ⟨1, 1, 0⟩ :=
  claim_C10_zero_threshold 1 1 (by norm_num) (by norm_num) ⟨1, 1, 0⟩

/-- C1: in normal mode the returned list is the first `min 5 _` elements of
the generated candidates under the stable sort by error (non-decreasing
error; ties in generation order, i.e. ascending denominator, captured by
`errDenLT`), and every returned pair is reduced. -/
theorem claim_C1_normal_top5 (a b : ℕ) (ha : 1 ≤ a) (hb : 1 ≤ b)
    (hmode : (approximate_top5 a b).1 = .normal) :
    (approximate_top5 a b).2 =
      (sortByErr (genCandidates MAX_DENOMINATOR ((a : ℚ) / (b : ℚ)))).take 5 ∧
    (approximate_top5 a b).2.length =
      min 5 (genCandidates MAX_DENOMINATOR ((a : ℚ) / (b : ℚ))).length ∧
    (approximate_top5 a b).2.Pairwise errDenLT ∧
    ∀ c ∈ (approximate_top5 a b).2, Int.gcd c.num c.den = 1 := by
  unfold approximate_top5 at hmode ⊢
  have hgen : genCandidates MAX_DENOMINATOR ((a : ℚ) / (b : ℚ)) ≠ [] := by
    intro h
    rw [approx_empty_cases SINGLE_DIGIT_THRESHOLD h] at hmode
    by_cases hab : a < b
    · rw [if_pos hab] at hmode
      exact RMode.noConfusion hmode
    · rw [if_neg hab] at hmode
      exact RMode.noConfusion hmode
  have h2 := approx_snd_of_ne_nil SINGLE_DIGIT_THRESHOLD hgen
  refine ⟨h2, ?_, ?_, ?_⟩
  · rw [h2, List.length_take, sortByErr_length]
  · rw [h2]
    exact List.Pairwise.sublist (List.take_sublist 5 _)
      (sortByErr_pairwise (genCandidates_pairwise_den _ _))
  · intro c hc
    rw [h2] at hc
    exact (mem_genCandidates
      (mem_sortByErr ((List.take_sublist 5 _).subset hc))).2.2.2.1

/-- C1 witness: the normal-mode statement applied at `(1, 1)`. -/
theorem claim_C1_witness :
    (approximate_top5 1 1).2 =
      (sortByErr (genCandidates MAX_DENOMINATOR
        (((1 : ℕ) : ℚ) / ((1 : ℕ) : ℚ)))).take 5 ∧
    (approximate_top5 1 1).2.length =
      min 5 (genCandidates MAX_DENOMINATOR
        (((1 : ℕ) : ℚ) / ((1 : ℕ) : ℚ))).length ∧
    (approximate_top5 1 1).2.Pairwise errDenLT ∧
    ∀ c ∈ (approximate_top5 1 1).2, Int.gcd c.num c.den = 1 :=
  claim_C1_normal_top5 1 1 (by norm_num) (by norm_num)
    (by with_unfolding_all decide)

/-- C4: with a non-empty candidate list and a non-empty single-digit bucket
(witnessed by the heads of their stable sorts), the single-digit mode is
returned, carrying the minimum-error single-digit candidate together with
the top-5 list, exactly when its error is below the threshold and its
(num, den) pair differs from the global best; otherwise the mode is normal
with the same top 5. -/
theorem claim_C4_single_digit_policy (a b : ℕ) (ha : 1 ≤ a) (hb : 1 ≤ b)
    (best g : Candidate)
    (hbest : (sortByErr ((genCandidates MAX_DENOMINATOR
        ((a : ℚ) / (b : ℚ))).filter isSingleDigit)).head? = some best)
    (hg : (sortByErr (genCandidates MAX_DENOMINATOR
        ((a : ℚ) / (b : ℚ)))).head? = some g) :
    (approximate_top5 a b =
        (.single_digit_preferred best,
          (sortByErr (genCandidates MAX_DENOMINATOR
            ((a : ℚ) / (b : ℚ)))).take 5) ↔
      (best.err < SINGLE_DIGIT_THRESHOLD ∧
        ¬(best.num = g.num ∧ best.den = g.den))) ∧
    (approximate_top5 a b =
        (.normal, (sortByErr (genCandidates MAX_DENOMINATOR
          ((a : ℚ) / (b : ℚ)))).take 5) ↔
      ¬(best.err < SINGLE_DIGIT_THRESHOLD ∧
        ¬(best.num = g.num ∧ best.den = g.den))) := by
  rcases hb1 : sortByErr ((genCandidates MAX_DENOMINATOR
      ((a : ℚ) / (b : ℚ))).filter isSingleDigit) with _ | ⟨best', bs⟩
  · rw [hb1] at hbest
    exact absurd hbest (by simp)
  rcases hg1 : sortByErr (genCandidates MAX_DENOMINATOR
      ((a : ℚ) / (b : ℚ))) with _ | ⟨g', gs⟩
  · rw [hg1] at hg
    exact absurd hg (by simp)
  rw [hb1] at hbest
  rw [hg1] at hg
  simp only [List.head?_cons, Option.some.injEq] at hbest hg
  subst hbest
  subst hg
  unfold approximate_top5
  rw [approx_mode_of_heads SINGLE_DIGIT_THRESHOLD hb1 hg1]
  split_ifs with hthr heq
  · refine ⟨⟨fun h => ?_, fun hcond => absurd heq hcond.2⟩,
      ⟨fun _ hcond => hcond.2 heq, fun _ => rfl⟩⟩
    simp [Prod.ext_iff] at h
  · exact ⟨⟨fun _ => ⟨hthr, heq⟩, fun _ => rfl⟩,
      ⟨fun h => by simp [Prod.ext_iff] at h,
       fun hcond => absurd ⟨hthr, heq⟩ hcond⟩⟩
  · refine ⟨⟨fun h => ?_, fun hcond => absurd hcond.1 hthr⟩,
      ⟨fun _ hcond => hthr hcond.1, fun _ => rfl⟩⟩
    simp [Prod.ext_iff] at h

/-- C4 witness: at `(17, 24)` the best single-digit candidate `5 : 7`
(error `1/168 < 1/100`) differs from the global best `17 : 24`, so the mode
is single-digit-preferred. -/
theorem claim_C4_witness :
    approximate_top5 17 24 =
      (.single_digit_preferred ⟨5, 7, 1 / 168⟩,
        (sortByErr (genCandidates MAX_DENOMINATOR
          (((17 : ℕ) : ℚ) / ((24 : ℕ) : ℚ)))).take 5) :=
  ((claim_C4_single_digit_policy 17 24 (by norm_num) (by norm_num)
      ⟨5, 7, 1 / 168⟩ ⟨17, 24, 0⟩
      (by with_unfolding_all decide)
      (by with_unfolding_all decide)).1).mpr
    (by with_unfolding_all decide)

/-- C5 (amended): every returned candidate has a positive numerator, a
positive denominator, a reduced pair, and error `|num/den - target| ≥ 0`;
the denominator is bounded by `MAX_DENOMINATOR` in every mode except
`limit_small`, where it is `max 1 (round (b/a))` and may exceed the bound. -/
theorem claim_C5_invariants (a b : ℕ) (ha : 1 ≤ a) (hb : 1 ≤ b) :
    ∀ c ∈ (approximate_top5 a b).2,
      1 ≤ c.num ∧ 1 ≤ c.den ∧ Int.gcd c.num c.den = 1 ∧
      c.err = |(c.num : ℚ) / (c.den : ℚ) - (a : ℚ) / (b : ℚ)| ∧
      0 ≤ c.err ∧
      ((approximate_top5 a b).1 ≠ .limit_small →
        c.den ≤ (MAX_DENOMINATOR : ℤ)) := by
  intro c hc
  unfold approximate_top5 at hc ⊢
  by_cases hgen : genCandidates MAX_DENOMINATOR ((a : ℚ) / (b : ℚ)) = []
  · rw [approx_empty_cases SINGLE_DIGIT_THRESHOLD hgen] at hc ⊢
    by_cases hab : a < b
    · rw [if_pos hab] at hc ⊢
      simp only [List.mem_singleton] at hc
      subst hc
      refine ⟨by norm_num, le_max_left _ _, by simp [Int.gcd], by norm_num,
        abs_nonneg _, fun hne => absurd rfl hne⟩
    · rw [if_neg hab] at hc ⊢
      simp only [List.mem_singleton] at hc
      subst hc
      refine ⟨le_max_left _ _, le_refl _, by simp [Int.gcd], by norm_num,
        abs_nonneg _, fun _ => by norm_num [MAX_DENOMINATOR]⟩
  · rw [approx_snd_of_ne_nil SINGLE_DIGIT_THRESHOLD hgen] at hc
    have hcg := mem_sortByErr ((List.take_sublist 5 _).subset hc)
    obtain ⟨⟨hd1, hd2⟩, hnum, h0, hgcd, herr⟩ := mem_genCandidates hcg
    have hta : (0 : ℚ) ≤ (a : ℚ) / (b : ℚ) := by positivity
    have hdq : (0 : ℚ) ≤ (c.den : ℚ) := by
      have : (0 : ℤ) ≤ c.den := by omega
      exact_mod_cast this
    have hnn : 0 ≤ c.num := by
      rw [hnum]
      exact pyRound_nonneg (mul_nonneg hta hdq)
    exact ⟨by omega, hd1, hgcd, herr, herr ▸ abs_nonneg _, fun _ => hd2⟩

set_option maxRecDepth 400000 in
/-- C5 counterexample: at `(1, 1000)` the returned limit-small candidate has
denominator `1000`, which violates the claimed bound
`denominator ≤ MAX_DENOMINATOR = 64`. -/
theorem claim_C5_counterexample :
    (⟨1, 1000, 0⟩ : Candidate) ∈ (approximate_top5 1 1000).2 ∧
    ¬((⟨1, 1000, 0⟩ : Candidate).den ≤ (MAX_DENOMINATOR : ℤ)) := by
  with_unfolding_all decide

/-- C5 witness: the amended invariant applied at `(1, 1)` to the returned
candidate `(1, 1, 0)`. -/
theorem claim_C5_witness :
    1 ≤ (⟨1, 1, 0⟩ : Candidate).num ∧ 1 ≤ (⟨1, 1, 0⟩ : Candidate).den ∧
    Int.gcd (⟨1, 1, 0⟩ : Candidate).num (⟨1, 1, 0⟩ : Candidate).den = 1 ∧
    (⟨1, 1, 0⟩ : Candidate).err =
      |((⟨1, 1, 0⟩ : Candidate).num : ℚ) / ((⟨1, 1, 0⟩ : Candidate).den : ℚ) -
        ((1 : ℕ) : ℚ) / ((1 : ℕ) : ℚ)| ∧
    0 ≤ (⟨1, 1, 0⟩ : Candidate).err ∧
    ((approximate_top5 1 1).1 ≠ .limit_small →
      (⟨1, 1, 0⟩ : Candidate).den ≤ (MAX_DENOMINATOR : ℤ)) :=
  claim_C5_invariants 1 1 (by norm_num) (by norm_num) ⟨1, 1, 0⟩
    (by with_unfolding_all decide)

/-- C6: the core is total on positive inputs: it always returns a non-empty
candidate list, and every division it guards has a nonzero divisor
(`b`, the loop denominators, `a` in `round (b/a)`, and the extreme
denominator). -/
theorem claim_C6_total (a b : ℕ) (ha : 1 ≤ a) (hb : 1 ≤ b) :
    (approximate_top5 a b).2 ≠ [] ∧
    (a : ℚ) ≠ 0 ∧ (b : ℚ) ≠ 0 ∧
    (∀ d ∈ List.range' 1 MAX_DENOMINATOR, (d : ℚ) ≠ 0) ∧
    ((max 1 (pyRound ((b : ℚ) / (a : ℚ))) : ℤ) : ℚ) ≠ 0 := by
  refine ⟨?_, ?_, ?_, ?_, ?_⟩
  · unfold approximate_top5
    by_cases hgen : genCandidates MAX_DENOMINATOR ((a : ℚ) / (b : ℚ)) = []
    · rw [approx_empty_cases SINGLE_DIGIT_THRESHOLD hgen]
      by_cases hab : a < b
      · rw [if_pos hab]
        exact List.cons_ne_nil _ _
      · rw [if_neg hab]
        exact List.cons_ne_nil _ _
    · rw [approx_snd_of_ne_nil SINGLE_DIGIT_THRESHOLD hgen]
      intro h
      have hlen := congrArg List.length h
      rw [List.length_take, sortByErr_length] at hlen
      simp only [List.length_nil] at hlen
      have : genCandidates MAX_DENOMINATOR ((a : ℚ) / (b : ℚ)) = [] :=
        List.eq_nil_of_length_eq_zero (by omega)
      exact hgen this
  · exact Nat.cast_ne_zero.mpr (by omega)
  · exact Nat.cast_ne_zero.mpr (by omega)
  · intro d hd
    rw [List.mem_range'_1] at hd
    exact Nat.cast_ne_zero.mpr (by omega)
  · have h1 : (1 : ℤ) ≤ max 1 (pyRound ((b : ℚ) / (a : ℚ))) := le_max_left _ _
    exact Int.cast_ne_zero.mpr (by omega)

/-- C6 witness: totality at the concrete input `(1, 1)`. -/
theorem claim_C6_witness :
    (approximate_top5 1 1).2 ≠ [] ∧
    ((1 : ℕ) : ℚ) ≠ 0 ∧ ((1 : ℕ) : ℚ) ≠ 0 ∧
    (∀ d ∈ List.range' 1 MAX_DENOMINATOR, (d : ℚ) ≠ 0) ∧
    ((max 1 (pyRound (((1 : ℕ) : ℚ) / ((1 : ℕ) : ℚ))) : ℤ) : ℚ) ≠ 0 :=
  claim_C6_total 1 1 (by norm_num) (by norm_num)

/-- C9: when `a ≥ b` the generation loop always yields a candidate at
denominator 1, so the candidate list is non-empty; consequently the
`limit_large` branch is never taken for positive inputs. -/
theorem claim_C9_no_limit_large (a b : ℕ) (ha : 1 ≤ a) (hb : 1 ≤ b) :
    (b ≤ a → genCandidates MAX_DENOMINATOR ((a : ℚ) / (b : ℚ)) ≠ []) ∧
    (approximate_top5 a b).1 ≠ .limit_large := by
  have hne : b ≤ a → genCandidates MAX_DENOMINATOR ((a : ℚ) / (b : ℚ)) ≠ [] := by
    intro hba
    have hb0 : (0 : ℚ) < (b : ℚ) := by exact_mod_cast (by omega : 0 < b)
    have ht : 1 ≤ (a : ℚ) / (b : ℚ) :=
      (one_le_div hb0).mpr (by exact_mod_cast hba)
    exact genCandidates_ne_nil (by norm_num [MAX_DENOMINATOR]) ht
  refine ⟨hne, ?_⟩
  unfold approximate_top5
  by_cases hgen : genCandidates MAX_DENOMINATOR ((a : ℚ) / (b : ℚ)) = []
  · have hab : a < b := by
      by_contra hab
      exact hne (by omega) hgen
    rw [approx_empty_cases SINGLE_DIGIT_THRESHOLD hgen, if_pos hab]
    exact fun h => RMode.noConfusion h
  · rcases approx_fst_spec SINGLE_DIGIT_THRESHOLD hgen with
      hn | ⟨best, bs, _, _, hsdp⟩
    · rw [hn]
      exact fun h => RMode.noConfusion h
    · rw [hsdp]
      exact fun h => RMode.noConfusion h

/-- C9 witness: at `(2, 1)` the candidate list is non-empty and the mode is
not `limit_large`. -/
theorem claim_C9_witness :
    genCandidates MAX_DENOMINATOR (((2 : ℕ) : ℚ) / ((1 : ℕ) : ℚ)) ≠ [] ∧
    (approximate_top5 2 1).1 ≠ .limit_large :=
  ⟨(claim_C9_no_limit_large 2 1 (by norm_num) (by norm_num)).1 (by norm_num),
   (claim_C9_no_limit_large 2 1 (by norm_num) (by norm_num)).2⟩

end RatioFinder
